import Mathlib

/-!
Shallow embedding of the Vectrieve RAG assistant core.

The repository's visible code is the Next.js client
(`src/vectrieve-ui/lib/api.ts`, `src/vectrieve-ui/app/page.tsx`); the backend
pipeline (ChunkSplitter, VectorIndex, IngestionPipeline, FeedbackStore,
AnalyticsAggregator) is described by the specification but its source is not
in the repository snapshot.  Definitions for the backend are therefore
modelled from the spec and marked as such; client functions are embedded
from the TypeScript source.
-/

namespace Vectrieve

/-! ### Client model: src/vectrieve-ui/lib/api.ts and app/page.tsx -/

/-- The JavaScript value found in the `files` field of the `/files` response
body: absent/undefined, null, or an array of filename strings. -/
inductive JsFiles where
  | undef
  | nullv
  | arr (files : List String)
deriving DecidableEq

/-- JavaScript truthiness of such a value: `undefined` and `null` are falsy;
an array (even an empty one) is truthy. -/
def JsFiles.truthy : JsFiles → Bool
  | .undef => false
  | .nullv => false
  | .arr _ => true

/-- JavaScript `a || b` on these values. -/
def jsOr (a b : JsFiles) : JsFiles := if a.truthy then a else b

/-- `getFiles` from src/vectrieve-ui/lib/api.ts lines 58-61:
`return res.data.files || []`. -/
def getFiles (files : JsFiles) : JsFiles := jsOr files (JsFiles.arr [])

/-- Binary feedback sentiment (`'positive' | 'negative'`). -/
inductive Sentiment where
  | positive
  | negative
deriving DecidableEq

/-- One retrieved source attached to an assistant message
(`{ filename; content; score }` in api.ts). -/
structure RetrievedSource where
  filename : String
  content : String
  score : ℚ
deriving DecidableEq

/-- Chat roles of the `Message` interface. -/
inductive Role where
  | user
  | assistant
  | system
deriving DecidableEq

/-- The `Message` interface of src/vectrieve-ui/lib/api.ts lines 11-18;
optional fields become `Option`. -/
structure Message where
  role : Role
  content : String
  sources : Option (List RetrievedSource)
  latency : Option ℚ
  query_id : Option String
  last_query : Option String
deriving DecidableEq

/-- The payload type of `sendFeedback` in src/vectrieve-ui/lib/api.ts
lines 69-77. -/
structure FeedbackPayload where
  query_id : String
  feedback : Sentiment
  query : String
  response : String
  latency : ℚ
deriving DecidableEq

/-- `handleFeedback` from src/vectrieve-ui/app/page.tsx lines 73-83:
`if (!msg.query_id) return;` then `sendFeedback({...})`.  The result is the
payload of the feedback request issued, or `none` when the guard returns
early (JS falsiness: a missing `query_id` or the empty string).  The
defaults mirror `msg.last_query || ""` and `msg.latency || 0`. -/
def handleFeedback (msg : Message) (t : Sentiment) : Option FeedbackPayload :=
  if msg.query_id.getD "" = "" then none
  else some
    { query_id := msg.query_id.getD ""
      feedback := t
      query := msg.last_query.getD ""
      response := msg.content
      latency := msg.latency.getD 0 }

/-- A concrete locally generated connection-error message
(page.tsx line 67): it carries no `query_id`. -/
def connectionErrorMsg : Message :=
  { role := Role.assistant
    content := "Connection Error. Is backend running?"
    sources := none
    latency := none
    query_id := none
    last_query := none }

/-! ### FeedbackStore and AnalyticsAggregator -/

/-- Modelled from the spec: `FeedbackRecord` (§3), the append-only feedback
fact `{query_id, sentiment, query_text, response_text, latency_seconds,
created_at}`. -/
structure FeedbackRecord where
  query_id : String
  sentiment : Sentiment
  query_text : String
  response_text : String
  latency_seconds : ℚ
  created_at : ℕ
deriving DecidableEq

/-- Modelled from the spec: the FeedbackStore (§4.7), an append-only log of
feedback records. -/
abbrev FeedbackStore := List FeedbackRecord

/-- Modelled from the spec: `FeedbackStore.record` (§4.7) appends the record;
multiple submissions for the same `query_id` are all retained, with no
de-duplication. -/
def record (s : FeedbackStore) (r : FeedbackRecord) : FeedbackStore := s ++ [r]

/-- The `AnalyticsData` interface of src/vectrieve-ui/lib/api.ts lines 20-27,
i.e. the spec's derived `AnalyticsSnapshot` (§3, §4.8).  The `models`
breakdown is omitted here: no claim concerns it. -/
structure AnalyticsSnapshot where
  total : ℕ
  avg_latency : ℚ
  likes : ℕ
  dislikes : ℕ
  history : List (ℕ × ℚ)
deriving DecidableEq

/-- Modelled from the spec: `AnalyticsAggregator.snapshot` (§4.8), a full scan
over the feedback store: `total` counts records, `avg_latency` is the
arithmetic mean of `latency_seconds` (0 on an empty store), `likes` and
`dislikes` count sentiments, `history` lists `(created_at, latency)` in
creation order. -/
def snapshot (s : FeedbackStore) : AnalyticsSnapshot :=
  { total := s.length
    avg_latency :=
      if s.length = 0 then 0 else (s.map (·.latency_seconds)).sum / (s.length : ℚ)
    likes := (s.filter (fun r => r.sentiment = Sentiment.positive)).length
    dislikes := (s.filter (fun r => r.sentiment = Sentiment.negative)).length
    history := s.map (fun r => (r.created_at, r.latency_seconds)) }

/-- A concrete feedback record with a given sentiment and latency, used to
instantiate scenarios. -/
def sampleRecord (q : String) (sent : Sentiment) (lat : ℚ) (t : ℕ) : FeedbackRecord :=
  { query_id := q
    sentiment := sent
    query_text := "q"
    response_text := "r"
    latency_seconds := lat
    created_at := t }

/-- A concrete feedback store with latencies 1, 2, 3 (spec §8 scenario). -/
def threeLatencyStore : FeedbackStore :=
  [sampleRecord "q1" Sentiment.positive 1 0,
   sampleRecord "q2" Sentiment.positive 2 1,
   sampleRecord "q3" Sentiment.negative 3 2]

/-! ### ChunkSplitter -/

/-- Modelled from the spec: the effective overlap window of `ChunkSplitter`
(§4.1), `overlap_chars` bounded so overlap never exceeds
`max_chunk_chars / 2`. -/
def effOverlap (maxChars overlap : ℕ) : ℕ := min overlap (maxChars / 2)

/-- Modelled from the spec: candidate soft cut positions for a chunk (§4.1).
Position `i` cuts just after character `i - 1`; a candidate must leave more
than the overlap behind (`ov < i`), fit in the chunk budget (`i ≤ maxChars`)
and lie inside the text, and the character before the cut must satisfy the
boundary predicate `p`. -/
def cutCands (maxChars ov : ℕ) (p : Char → Bool) (cs : List Char) : List ℕ :=
  (List.range (maxChars + 1)).filter
    (fun i => decide (ov < i) && decide (i ≤ cs.length) && p (cs.getD (i - 1) ' '))

/-- Modelled from the spec: the preferred cut position of `ChunkSplitter`
(§4.1): the last paragraph break (newline) within the budget, else the last
sentence break (period), else the last word break (space), else a hard cut
at exactly `max_chunk_chars`. -/
def cutPoint (maxChars ov : ℕ) (cs : List Char) : ℕ :=
  match (cutCands maxChars ov (fun c => c == '\n') cs).max? with
  | some i => i
  | none =>
    match (cutCands maxChars ov (fun c => c == '.') cs).max? with
    | some i => i
    | none =>
      match (cutCands maxChars ov (fun c => c == ' ') cs).max? with
      | some i => i
      | none => maxChars

/-- Modelled from the spec: the chunking loop of `ChunkSplitter.split` (§4.1),
structurally recursive on a fuel bound.  A text within the budget is a single
chunk; otherwise the chunk is cut at `cutPoint` and the next chunk begins
`ov` characters before the end of the previous chunk's text. -/
def splitGo (maxChars ov : ℕ) : ℕ → List Char → List (List Char)
  | 0, _ => []
  | fuel + 1, cs =>
    if cs.isEmpty then []
    else if cs.length ≤ maxChars then [cs]
    else
      cs.take (cutPoint maxChars ov cs) ::
        splitGo maxChars ov fuel (cs.drop (cutPoint maxChars ov cs - ov))

/-- Modelled from the spec: `ChunkSplitter.split` (§4.1) on the character
sequence of a text: empty or whitespace-only input produces an empty
sequence of chunks. -/
def splitChunks (maxChars overlap : ℕ) (text : String) : List (List Char) :=
  let cs := text.data
  if cs.all (fun c => c.isWhitespace) then []
  else splitGo maxChars (effOverlap maxChars overlap) (cs.length + 1) cs

/-- Reassembly of a chunk sequence: the first chunk in full, every later
chunk with its leading overlap region of `ov` characters removed. -/
def reconstruct (ov : ℕ) : List (List Char) → List Char
  | [] => []
  | c :: rest => c ++ (rest.map (List.drop ov)).flatten

/-! ### VectorIndex -/

/-- Modelled from the spec: `IndexEntry` (§3), the persisted form of a chunk:
`{text, source_filename, sequence_index, embedding}`. -/
structure IndexEntry where
  source_filename : String
  sequence_index : ℕ
  text : List Char
  embedding : List ℚ
deriving DecidableEq

/-- Dot product of two embedding vectors. -/
def dot (u v : List ℚ) : ℚ := (List.zipWith (fun a b => a * b) u v).sum

/-- Modelled from the spec: Embedder capability adapter (§4.3), a pure
request/response function producing a fixed-length vector per text; here a
deterministic stand-in (length and letter count) since the provider API is an
opaque external capability (§1). -/
def embed (cs : List Char) : List ℚ :=
  [(cs.length : ℚ), ((cs.filter (fun c => c.isAlpha)).length : ℚ)]

/-- Modelled from the spec: the similarity score of `VectorIndex.search`
(§4.4), cosine similarity or an equivalent monotonic transform; here the dot
product with the query vector as a rational-valued transform. -/
def score (q : List ℚ) (e : IndexEntry) : ℚ := dot q e.embedding

/-- The ordering of search results (§4.4): descending score, ties broken by
ascending `sequence_index` then `filename`. -/
def searchLE (a b : IndexEntry × ℚ) : Prop :=
  b.2 < a.2 ∨
    (a.2 = b.2 ∧
      (a.1.sequence_index < b.1.sequence_index ∨
        (a.1.sequence_index = b.1.sequence_index ∧
          a.1.source_filename ≤ b.1.source_filename)))

instance : DecidableRel searchLE := fun a b => by
  unfold searchLE
  infer_instance

instance : IsTotal (IndexEntry × ℚ) searchLE := by
  constructor
  intro a b
  unfold searchLE
  rcases lt_trichotomy a.2 b.2 with h | h | h
  · exact Or.inr (Or.inl h)
  · rcases lt_trichotomy a.1.sequence_index b.1.sequence_index with h2 | h2 | h2
    · exact Or.inl (Or.inr ⟨h, Or.inl h2⟩)
    · rcases le_total a.1.source_filename b.1.source_filename with h3 | h3
      · exact Or.inl (Or.inr ⟨h, Or.inr ⟨h2, h3⟩⟩)
      · exact Or.inr (Or.inr ⟨h.symm, Or.inr ⟨h2.symm, h3⟩⟩)
    · exact Or.inr (Or.inr ⟨h.symm, Or.inl h2⟩)
  · exact Or.inl (Or.inl h)

instance : IsTrans (IndexEntry × ℚ) searchLE := by
  constructor
  intro a b c hab hbc
  unfold searchLE at hab hbc ⊢
  rcases hab with hab | ⟨hab, tab⟩
  · rcases hbc with hbc | ⟨hbc, _⟩
    · exact Or.inl (lt_trans hbc hab)
    · exact Or.inl (hbc ▸ hab)
  · rcases hbc with hbc | ⟨hbc, tbc⟩
    · exact Or.inl (hab ▸ hbc)
    · refine Or.inr ⟨hab.trans hbc, ?_⟩
      rcases tab with tab | ⟨tab1, tab2⟩
      · rcases tbc with tbc | ⟨tbc1, _⟩
        · exact Or.inl (lt_trans tab tbc)
        · exact Or.inl (tbc1 ▸ tab)
      · rcases tbc with tbc | ⟨tbc1, tbc2⟩
        · exact Or.inl (tab1 ▸ tbc)
        · exact Or.inr ⟨tab1.trans tbc1, le_trans tab2 tbc2⟩

/-- Modelled from the spec: `VectorIndex.search(q, k)` (§4.4): score every
entry, order by descending score with deterministic tie-breaking, clamp to
`k` results.  Searching an empty index returns an empty sequence. -/
def search (q : List ℚ) (k : ℕ) (idx : List IndexEntry) : List (IndexEntry × ℚ) :=
  (List.insertionSort searchLE (idx.map (fun e => (e, score q e)))).take k

/-! ### IngestionPipeline -/

/-- Modelled from the spec (§2, §4.2): the `IndexEntry` sequence derived from
one file: the chunks of its text in order, with contiguous zero-based
`sequence_index` and the embedding of each chunk. -/
def entriesFor (maxChars overlap : ℕ) (f : String) (text : String) : List IndexEntry :=
  (splitChunks maxChars overlap text).enum.map
    (fun p => { source_filename := f, sequence_index := p.1, text := p.2, embedding := embed p.2 })

/-- Modelled from the spec: the shared mutable state of the pipeline (§5, §6):
the registry of filenames (a set) and the vector index (the persisted
entries). -/
structure PipelineState where
  registry : Finset String
  index : List IndexEntry
deriving DecidableEq

/-- The initial pipeline state: nothing ingested. -/
def initState : PipelineState := { registry := ∅, index := [] }

/-- Modelled from the spec: the error taxonomy (§7). -/
inductive CoreError where
  | UnsupportedFormat
  | DuplicateFile
  | NotFound
  | UpstreamUnavailable
  | UpstreamTimeout
  | InvalidInput
deriving DecidableEq

/-- Modelled from the spec: `IngestionPipeline.ingest` (§4.2).  A duplicate
filename fails with `DuplicateFile` and leaves the state untouched; input
that yields no chunks (empty or whitespace-only text) fails with
`InvalidInput` (§7) so that no registered file can lack an indexed chunk
(§4.2 `list_files` contract); on success all entries are upserted and the
filename registered in one atomic state change (the atomicity-of-visibility
invariant of §4.2/§5). -/
def ingest (maxChars overlap : ℕ) (s : PipelineState) (f : String) (text : String) :
    PipelineState × Except CoreError ℕ :=
  if f ∈ s.registry then (s, Except.error CoreError.DuplicateFile)
  else
    let entries := entriesFor maxChars overlap f text
    if entries.isEmpty then (s, Except.error CoreError.InvalidInput)
    else
      ({ registry := insert f s.registry, index := s.index ++ entries },
        Except.ok entries.length)

/-- Modelled from the spec: `IngestionPipeline.delete` (§4.2): removes all
IndexEntries for the filename, then removes it from the registry; an unknown
filename fails with `NotFound` and changes nothing. -/
def deleteFile (s : PipelineState) (f : String) : PipelineState × Except CoreError Unit :=
  if f ∈ s.registry then
    ({ registry := s.registry.erase f
       index := s.index.filter (fun e => e.source_filename ≠ f) },
      Except.ok ())
  else (s, Except.error CoreError.NotFound)

/-- Modelled from the spec: `list_files` (§4.2) reflects exactly the registry
state. -/
def listFiles (s : PipelineState) : Finset String := s.registry

/-- The operations that mutate pipeline state. -/
inductive Op where
  | ingest (filename : String) (text : String)
  | delete (filename : String)

/-- State transition of one operation (the returned error, if any, is
reported to the caller and does not affect the state). -/
def step (maxChars overlap : ℕ) (s : PipelineState) (op : Op) : PipelineState :=
  match op with
  | Op.ingest f t => (ingest maxChars overlap s f t).1
  | Op.delete f => (deleteFile s f).1

/-- The state after running a sequence of operations from the initial
state. -/
def run (maxChars overlap : ℕ) (ops : List Op) : PipelineState :=
  ops.foldl (step maxChars overlap) initState

/-- A pipeline state is reachable when some operation sequence produces it. -/
def Reachable (maxChars overlap : ℕ) (s : PipelineState) : Prop :=
  ∃ ops, run maxChars overlap ops = s

/-- A filename is fully indexed in a state: the index entries carrying it are
exactly the complete entry sequence derived from some ingested text, and that
sequence is non-empty. -/
def IndexedFor (maxChars overlap : ℕ) (s : PipelineState) (f : String) : Prop :=
  ∃ text, entriesFor maxChars overlap f text ≠ [] ∧
    s.index.filter (fun e => e.source_filename = f) = entriesFor maxChars overlap f text

/-- The visibility invariant (§4.2, §5): every indexed entry belongs to a
registered file, and every registered file is fully indexed. -/
def Inv (maxChars overlap : ℕ) (s : PipelineState) : Prop :=
  (∀ e ∈ s.index, e.source_filename ∈ s.registry) ∧
    ∀ f ∈ s.registry, IndexedFor maxChars overlap s f

/-- A concrete index entry for scenario instantiation. -/
def sampleEntry : IndexEntry :=
  { source_filename := "a.txt"
    sequence_index := 0
    text := "hi".data
    embedding := embed "hi".data }

/-- A concrete pipeline state with one registered, indexed file. -/
def sampleState : PipelineState :=
  { registry := {"a.txt"}, index := [sampleEntry] }

/-! ### Lemmas about the chunk splitter -/

theorem effOverlap_le_half (maxChars overlap : ℕ) :
    effOverlap maxChars overlap ≤ maxChars / 2 :=
  min_le_right _ _

theorem effOverlap_lt (maxChars overlap : ℕ) (h : 1 ≤ maxChars) :
    effOverlap maxChars overlap < maxChars :=
  lt_of_le_of_lt (min_le_right _ _) (Nat.div_lt_self h one_lt_two)

theorem cutCands_bounds {mc ov : ℕ} {p : Char → Bool} {cs : List Char} {i : ℕ}
    (h : (cutCands mc ov p cs).max? = some i) : ov < i ∧ i ≤ mc := by
  have hmem := List.max?_mem max_choice h
  rw [cutCands, List.mem_filter] at hmem
  obtain ⟨hr, hc⟩ := hmem
  rw [List.mem_range] at hr
  simp only [Bool.and_eq_true, decide_eq_true_eq] at hc
  exact ⟨hc.1.1, by omega⟩

theorem cutPoint_bounds {mc ov : ℕ} (cs : List Char) (hov : ov < mc) :
    ov < cutPoint mc ov cs ∧ cutPoint mc ov cs ≤ mc := by
  unfold cutPoint
  split
  · next h => exact ⟨(cutCands_bounds h).1, (cutCands_bounds h).2⟩
  · split
    · next h => exact ⟨(cutCands_bounds h).1, (cutCands_bounds h).2⟩
    · split
      · next h => exact ⟨(cutCands_bounds h).1, (cutCands_bounds h).2⟩
      · exact ⟨hov, le_refl mc⟩

theorem splitGo_length_le {mc ov : ℕ} (hov : ov < mc) :
    ∀ (fuel : ℕ) (cs : List Char), ∀ c ∈ splitGo mc ov fuel cs, c.length ≤ mc := by
  intro fuel
  induction fuel with
  | zero => intro cs c hc; simp [splitGo] at hc
  | succ n ih =>
    intro cs c hc
    rw [splitGo] at hc
    split at hc
    · simp at hc
    · split at hc
      · next hle =>
        rw [List.mem_singleton] at hc
        exact hc ▸ hle
      · rw [List.mem_cons] at hc
        rcases hc with rfl | hc
        · rw [List.length_take]
          exact le_trans (min_le_left _ _) (cutPoint_bounds cs hov).2
        · exact ih _ c hc

theorem splitGo_head {mc ov : ℕ} (hov : ov < mc) (fuel : ℕ) (cs : List Char)
    (hfuel : cs.length ≤ fuel) (hne : cs ≠ []) :
    ∃ c rest, splitGo mc ov fuel cs = c :: rest ∧ c.take ov = cs.take ov ∧
      (ov < cs.length → ov < c.length) := by
  cases fuel with
  | zero =>
    exfalso
    exact hne (List.length_eq_zero.mp (Nat.le_zero.mp hfuel))
  | succ n =>
    rw [splitGo]
    rw [if_neg (by simpa [List.isEmpty_iff] using hne)]
    by_cases hle : cs.length ≤ mc
    · rw [if_pos hle]
      exact ⟨cs, [], rfl, rfl, fun h => h⟩
    · rw [if_neg hle]
      refine ⟨cs.take (cutPoint mc ov cs), _, rfl, ?_, ?_⟩
      · rw [List.take_take, min_eq_left (le_of_lt (cutPoint_bounds cs hov).1)]
      · intro _
        rw [List.length_take]
        exact lt_min (cutPoint_bounds cs hov).1 (by omega)

theorem splitGo_reconstruct {mc ov : ℕ} (hov : ov < mc) :
    ∀ (fuel : ℕ) (cs : List Char), cs.length ≤ fuel →
      reconstruct ov (splitGo mc ov fuel cs) = cs := by
  intro fuel
  induction fuel with
  | zero =>
    intro cs h
    rw [List.length_eq_zero.mp (Nat.le_zero.mp h)]
    rfl
  | succ n ih =>
    intro cs hlen
    by_cases hne : cs = []
    · subst hne; rfl
    rw [splitGo, if_neg (by simpa [List.isEmpty_iff] using hne)]
    by_cases hle : cs.length ≤ mc
    · rw [if_pos hle]
      simp [reconstruct]
    · rw [if_neg hle]
      have hb := cutPoint_bounds cs hov
      have hlt : mc < cs.length := by omega
      have hrlen : (cs.drop (cutPoint mc ov cs - ov)).length =
          cs.length - (cutPoint mc ov cs - ov) := List.length_drop _ _
      have hrle : (cs.drop (cutPoint mc ov cs - ov)).length ≤ n := by omega
      have hrne : cs.drop (cutPoint mc ov cs - ov) ≠ [] := by
        intro hcon
        rw [← List.length_eq_zero] at hcon
        omega
      obtain ⟨c, l, hgo, htake, hlong⟩ := splitGo_head hov n _ hrle hrne
      have hovr : ov < (cs.drop (cutPoint mc ov cs - ov)).length := by omega
      have hclen : ov ≤ c.length := le_of_lt (hlong hovr)
      have hrec := ih _ hrle
      rw [hgo] at hrec ⊢
      simp only [reconstruct, List.map_cons, List.flatten_cons] at hrec ⊢
      have hstep : List.drop ov c ++ (List.map (List.drop ov) l).flatten =
          List.drop ov (List.drop (cutPoint mc ov cs - ov) cs) := by
        rw [← List.drop_append_of_le_length hclen, hrec]
      rw [hstep, List.drop_drop]
      have hcut : cutPoint mc ov cs - ov + ov = cutPoint mc ov cs := by omega
      rw [hcut, List.take_append_drop]

theorem splitGo_chain {mc ov : ℕ} (hov : ov < mc) :
    ∀ (fuel : ℕ) (cs : List Char), cs.length ≤ fuel →
      List.Chain' (fun a b => b.take ov = a.drop (a.length - ov))
        (splitGo mc ov fuel cs) := by
  intro fuel
  induction fuel with
  | zero => intro cs _; simp [splitGo]
  | succ n ih =>
    intro cs hlen
    by_cases hne : cs = []
    · subst hne; simp [splitGo]
    rw [splitGo, if_neg (by simpa [List.isEmpty_iff] using hne)]
    by_cases hle : cs.length ≤ mc
    · rw [if_pos hle]
      simp
    · rw [if_neg hle]
      have hb := cutPoint_bounds cs hov
      have hlt : mc < cs.length := by omega
      have hrlen : (cs.drop (cutPoint mc ov cs - ov)).length =
          cs.length - (cutPoint mc ov cs - ov) := List.length_drop _ _
      have hrle : (cs.drop (cutPoint mc ov cs - ov)).length ≤ n := by omega
      have hrne : cs.drop (cutPoint mc ov cs - ov) ≠ [] := by
        intro hcon
        rw [← List.length_eq_zero] at hcon
        omega
      obtain ⟨c, l, hgo, htake, _⟩ := splitGo_head hov n _ hrle hrne
      rw [hgo, List.chain'_cons']
      constructor
      · intro y hy
        rw [List.head?_cons, Option.mem_some_iff] at hy
        subst hy
        have hlentake : (cs.take (cutPoint mc ov cs)).length = cutPoint mc ov cs := by
          rw [List.length_take]
          exact min_eq_left (by omega)
        rw [hlentake, htake, List.drop_take]
        have : cutPoint mc ov cs - (cutPoint mc ov cs - ov) = ov := by omega
        rw [this]
      · have := ih _ hrle
        rw [hgo] at this
        exact this

/-! ### Lemmas about the ingestion pipeline -/

theorem entriesFor_source {mc ov : ℕ} {f t : String} {e : IndexEntry}
    (he : e ∈ entriesFor mc ov f t) : e.source_filename = f := by
  rw [entriesFor, List.mem_map] at he
  obtain ⟨p, _, rfl⟩ := he
  rfl

theorem inv_init (mc ov : ℕ) : Inv mc ov initState := by
  constructor
  · intro e he
    simp [initState] at he
  · intro f hf
    simp [initState] at hf

theorem inv_step {mc ov : ℕ} {s : PipelineState} (h : Inv mc ov s) (op : Op) :
    Inv mc ov (step mc ov s op) := by
  cases op with
  | ingest f t =>
    simp only [step, ingest]
    by_cases hf : f ∈ s.registry
    · rw [if_pos hf]
      exact h
    · rw [if_neg hf]
      by_cases hemp : (entriesFor mc ov f t).isEmpty
      · rw [if_pos hemp]
        exact h
      · rw [if_neg hemp]
        have hne : entriesFor mc ov f t ≠ [] := by
          simpa [List.isEmpty_iff] using hemp
        constructor
        · intro e he
          rw [List.mem_append] at he
          rcases he with he | he
          · exact Finset.mem_insert_of_mem (h.1 e he)
          · rw [entriesFor_source he]
            exact Finset.mem_insert_self f _
        · intro g hg
          rw [Finset.mem_insert] at hg
          rcases hg with rfl | hg
          · refine ⟨t, hne, ?_⟩
            rw [List.filter_append]
            have h1 : s.index.filter (fun e => decide (e.source_filename = g)) = [] := by
              rw [List.filter_eq_nil_iff]
              intro e he
              simp only [decide_eq_true_eq]
              intro hcon
              exact hf (hcon ▸ h.1 e he)
            have h2 : (entriesFor mc ov g t).filter
                (fun e => decide (e.source_filename = g)) = entriesFor mc ov g t := by
              rw [List.filter_eq_self]
              intro e he
              simp [entriesFor_source he]
            rw [h1, h2, List.nil_append]
          · obtain ⟨u, hu1, hu2⟩ := h.2 g hg
            have hgf : g ≠ f := fun hcon => hf (hcon ▸ hg)
            refine ⟨u, hu1, ?_⟩
            rw [List.filter_append]
            have h2 : (entriesFor mc ov f t).filter
                (fun e => decide (e.source_filename = g)) = [] := by
              rw [List.filter_eq_nil_iff]
              intro e he
              simp only [decide_eq_true_eq]
              intro hcon
              exact hgf ((entriesFor_source he ▸ hcon).symm)
            rw [h2, List.append_nil]
            exact hu2
  | delete f =>
    simp only [step, deleteFile]
    by_cases hf : f ∈ s.registry
    · rw [if_pos hf]
      constructor
      · intro e he
        rw [List.mem_filter] at he
        have h1 := h.1 e he.1
        have h2 : e.source_filename ≠ f := by simpa using he.2
        exact Finset.mem_erase.mpr ⟨h2, h1⟩
      · intro g hg
        rw [Finset.mem_erase] at hg
        obtain ⟨hgf, hg⟩ := hg
        obtain ⟨u, hu1, hu2⟩ := h.2 g hg
        refine ⟨u, hu1, ?_⟩
        rw [List.filter_filter]
        have hcong : s.index.filter
            (fun e => decide (e.source_filename = g) && decide (e.source_filename ≠ f)) =
            s.index.filter (fun e => decide (e.source_filename = g)) := by
          apply List.filter_congr
          intro e _
          by_cases hg' : e.source_filename = g
          · simp [hg', hgf]
          · simp [hg']
        rw [hcong]
        exact hu2
    · rw [if_neg hf]
      exact h

theorem inv_run (mc ov : ℕ) (ops : List Op) : Inv mc ov (run mc ov ops) := by
  rw [run]
  have key : ∀ s, Inv mc ov s → Inv mc ov (ops.foldl (step mc ov) s) := by
    induction ops with
    | nil => intro s hs; exact hs
    | cons op rest ih => intro s hs; exact ih _ (inv_step hs op)
  exact key _ (inv_init mc ov)

/-! ### Claim theorems -/

/-- Claim C1: feedback submissions are all retained with no de-duplication and
each is counted independently by the aggregator: appending a record grows the
store and the counted total by one and the matching sentiment counter by one;
for every query identifier `q`, two submissions for `q` with opposite
sentiments from an empty store yield `likes = 1`, `dislikes = 1`,
`total = 2`. -/
theorem feedback_counted_independently :
    (∀ (s : FeedbackStore) (r : FeedbackRecord),
      (record s r).length = s.length + 1 ∧
      (snapshot (record s r)).total = (snapshot s).total + 1 ∧
      (snapshot (record s r)).likes =
        (snapshot s).likes + (if r.sentiment = Sentiment.positive then 1 else 0) ∧
      (snapshot (record s r)).dislikes =
        (snapshot s).dislikes + (if r.sentiment = Sentiment.negative then 1 else 0)) ∧
    ∀ q : String,
      (snapshot (record (record [] (sampleRecord q Sentiment.positive 1 0))
        (sampleRecord q Sentiment.negative 1 1))).likes = 1 ∧
      (snapshot (record (record [] (sampleRecord q Sentiment.positive 1 0))
        (sampleRecord q Sentiment.negative 1 1))).dislikes = 1 ∧
      (snapshot (record (record [] (sampleRecord q Sentiment.positive 1 0))
        (sampleRecord q Sentiment.negative 1 1))).total = 2 := by
  constructor
  · intro s r
    refine ⟨by simp [record], by simp [snapshot, record], ?_, ?_⟩
    · cases hr : r.sentiment <;>
        simp [snapshot, record, hr, List.filter_append]
    · cases hr : r.sentiment <;>
        simp [snapshot, record, hr, List.filter_append]
  · intro q
    refine ⟨?_, ?_, ?_⟩ <;> simp [record, snapshot, sampleRecord]

/-- Claim C2: in every reachable pipeline state, `list_files` reflects exactly
the registry, and a filename is in the registry only if the index holds the
complete non-empty entry sequence derived from some ingested text for it
(every chunk embedded and indexed, at least one succeeded) — never a partial
one. -/
theorem reachable_registry_fully_indexed (mc ov : ℕ) (s : PipelineState)
    (h : Reachable mc ov s) :
    listFiles s = s.registry ∧
    ∀ f ∈ listFiles s,
      s.index.filter (fun e => e.source_filename = f) ≠ [] ∧ IndexedFor mc ov s f := by
  obtain ⟨ops, rfl⟩ := h
  refine ⟨rfl, fun f hf => ?_⟩
  obtain ⟨u, hu1, hu2⟩ := (inv_run mc ov ops).2 f hf
  exact ⟨by rw [hu2]; exact hu1, u, hu1, hu2⟩

theorem reachable_registry_fully_indexed_witness :
    Reachable 8 2 (run 8 2 [Op.ingest "a.txt" "hello world"]) ∧
    ((run 8 2 [Op.ingest "a.txt" "hello world"]).index.filter
        (fun e => e.source_filename = "a.txt") ≠ [] ∧
      IndexedFor 8 2 (run 8 2 [Op.ingest "a.txt" "hello world"]) "a.txt") :=
  ⟨⟨[Op.ingest "a.txt" "hello world"], rfl⟩,
    (reachable_registry_fully_indexed 8 2 _
      ⟨[Op.ingest "a.txt" "hello world"], rfl⟩).2 "a.txt" (by decide)⟩

/-- Claim C3: ingesting a filename already present in the registry fails with
`DuplicateFile`, for every raw input, and the state after the failed attempt
is exactly the state before it. -/
theorem ingest_duplicate_rejected (mc ov : ℕ) (s : PipelineState) (f t : String)
    (h : f ∈ s.registry) :
    ingest mc ov s f t = (s, Except.error CoreError.DuplicateFile) := by
  rw [ingest, if_pos h]

theorem ingest_duplicate_rejected_witness :
    "a.txt" ∈ sampleState.registry ∧
    ingest 8 2 sampleState "a.txt" "hello" =
      (sampleState, Except.error CoreError.DuplicateFile) :=
  ⟨by decide, ingest_duplicate_rejected 8 2 sampleState "a.txt" "hello" (by decide)⟩

/-- Claim C4: deleting a filename not in the registry fails with `NotFound`
and leaves the state (registry and index) unchanged; deleting a present
filename removes every index entry for it and removes it from the
registry. -/
theorem delete_not_found_or_removes_all (s : PipelineState) (f : String) :
    (f ∉ s.registry → deleteFile s f = (s, Except.error CoreError.NotFound)) ∧
    (f ∈ s.registry →
      (deleteFile s f).1.index = s.index.filter (fun e => e.source_filename ≠ f) ∧
      (deleteFile s f).1.registry = s.registry.erase f ∧
      f ∉ (deleteFile s f).1.registry ∧
      (deleteFile s f).2 = Except.ok ()) := by
  constructor
  · intro h
    rw [deleteFile, if_neg h]
  · intro h
    rw [deleteFile, if_pos h]
    exact ⟨rfl, rfl, Finset.not_mem_erase f _, rfl⟩

theorem delete_not_found_or_removes_all_witness :
    ("b.txt" ∉ initState.registry ∧
      deleteFile initState "b.txt" = (initState, Except.error CoreError.NotFound)) ∧
    ("a.txt" ∈ sampleState.registry ∧
      (deleteFile sampleState "a.txt").1.index =
        sampleState.index.filter (fun e => e.source_filename ≠ "a.txt") ∧
      (deleteFile sampleState "a.txt").1.registry = sampleState.registry.erase "a.txt" ∧
      "a.txt" ∉ (deleteFile sampleState "a.txt").1.registry ∧
      (deleteFile sampleState "a.txt").2 = Except.ok ()) :=
  ⟨⟨by decide, (delete_not_found_or_removes_all initState "b.txt").1 (by decide)⟩,
    ⟨by decide, (delete_not_found_or_removes_all sampleState "a.txt").2 (by decide)⟩⟩

/-- Claim C5: `VectorIndex.search(q, k)` is sorted by descending score with
ties ordered by ascending `sequence_index` then filename (the `searchLE`
order), its length is `k` clamped to the number of entries, and searching an
empty index returns the empty sequence. -/
theorem search_sorted_clamped (q : List ℚ) (k : ℕ) (idx : List IndexEntry) :
    List.Sorted searchLE (search q k idx) ∧
    (search q k idx).length = min k idx.length ∧
    search q k [] = [] := by
  refine ⟨?_, ?_, by simp [search]⟩
  · exact List.Pairwise.sublist (List.take_sublist _ _)
      (List.sorted_insertionSort searchLE _)
  · rw [search, List.length_take, List.length_insertionSort, List.length_map]

/-- Claim C6: the chunks of `ChunkSplitter.split`, concatenated with each
later chunk's leading overlap region removed, reconstruct the original text
exactly (whitespace-only inputs aside); each chunk after the first begins
with the last `effOverlap` characters of the previous chunk, and the overlap
never exceeds `max_chunk_chars / 2`. -/
theorem split_round_trip (mc ov : ℕ) (text : String) (hmc : 1 ≤ mc)
    (hws : text.data.all (fun c => c.isWhitespace) = false) :
    effOverlap mc ov ≤ mc / 2 ∧
    reconstruct (effOverlap mc ov) (splitChunks mc ov text) = text.data ∧
    List.Chain' (fun a b => b.take (effOverlap mc ov) =
      a.drop (a.length - effOverlap mc ov)) (splitChunks mc ov text) := by
  have hov := effOverlap_lt mc ov hmc
  have hsplit : splitChunks mc ov text =
      splitGo mc (effOverlap mc ov) (text.data.length + 1) text.data := by
    simp [splitChunks, hws]
  refine ⟨effOverlap_le_half mc ov, ?_, ?_⟩
  · rw [hsplit]
    exact splitGo_reconstruct hov _ _ (by omega)
  · rw [hsplit]
    exact splitGo_chain hov _ _ (by omega)

theorem split_round_trip_witness :
    (1 ≤ 8 ∧ "hello world".data.all (fun c => c.isWhitespace) = false) ∧
    reconstruct (effOverlap 8 2) (splitChunks 8 2 "hello world") = "hello world".data :=
  ⟨⟨by decide, by decide⟩,
    (split_round_trip 8 2 "hello world" (by decide) (by decide)).2.1⟩

/-- Claim C7: every chunk produced by `ChunkSplitter.split` has length at
most `max_chunk_chars` (a hard cut exists when no soft boundary does), and
empty or whitespace-only input produces the empty sequence of chunks. -/
theorem split_chunk_bounded (mc ov : ℕ) (text : String) (hmc : 1 ≤ mc) :
    (∀ c ∈ splitChunks mc ov text, c.length ≤ mc) ∧
    (text.data.all (fun c => c.isWhitespace) = true → splitChunks mc ov text = []) := by
  constructor
  · intro c hc
    simp only [splitChunks] at hc
    split at hc
    · simp at hc
    · exact splitGo_length_le (effOverlap_lt mc ov hmc) _ _ c hc
  · intro h
    simp [splitChunks, h]

theorem split_chunk_bounded_witness :
    ((1:ℕ) ≤ 8 ∧ ("hello ".data).length ≤ 8) ∧ splitChunks 8 2 "  " = [] :=
  ⟨⟨by decide,
      (split_chunk_bounded 8 2 "hello world" (by decide)).1 "hello ".data (by decide)⟩,
    (split_chunk_bounded 8 2 "  " (by decide)).2 (by decide)⟩

/-- Claim C8: `avg_latency` is the arithmetic mean of `latency_seconds` over
the counted records, `0` for the empty store (not a division error), and `2`
over latencies `[1, 2, 3]`. -/
theorem avg_latency_is_mean :
    (snapshot []).avg_latency = 0 ∧
    (∀ s : FeedbackStore, s ≠ [] →
      (snapshot s).avg_latency = (s.map (·.latency_seconds)).sum / (s.length : ℚ)) ∧
    (snapshot threeLatencyStore).avg_latency = 2 := by
  refine ⟨by simp [snapshot], ?_, ?_⟩
  · intro s hs
    rw [snapshot]
    exact if_neg (fun hcon => hs (List.length_eq_zero.mp hcon))
  · norm_num [snapshot, threeLatencyStore, sampleRecord]

theorem avg_latency_is_mean_witness :
    threeLatencyStore ≠ [] ∧
    (snapshot threeLatencyStore).avg_latency =
      (threeLatencyStore.map (·.latency_seconds)).sum / (threeLatencyStore.length : ℚ) :=
  ⟨by simp [threeLatencyStore],
    avg_latency_is_mean.2.1 threeLatencyStore (by simp [threeLatencyStore])⟩

/-- Claim C9: `getFiles` returns the response's `files` array when present
and the empty array when the field is absent or null; it never returns a
null or undefined value to its callers. -/
theorem getFiles_never_null :
    (∀ l, getFiles (JsFiles.arr l) = JsFiles.arr l) ∧
    getFiles JsFiles.undef = JsFiles.arr [] ∧
    getFiles JsFiles.nullv = JsFiles.arr [] ∧
    ∀ v, ∃ l, getFiles v = JsFiles.arr l := by
  refine ⟨fun l => rfl, rfl, rfl, fun v => ?_⟩
  cases v with
  | undef => exact ⟨[], rfl⟩
  | nullv => exact ⟨[], rfl⟩
  | arr l => exact ⟨l, rfl⟩

/-- Claim C10: when a message carries no `query_id`, `handleFeedback` returns
without issuing any feedback request, so feedback is only ever submitted for
a message that carries a query identifier. -/
theorem feedback_requires_query_id (msg : Message) (t : Sentiment)
    (h : msg.query_id = none) : handleFeedback msg t = none := by
  rw [handleFeedback, h]
  rfl

theorem feedback_requires_query_id_witness :
    connectionErrorMsg.query_id = none ∧
    handleFeedback connectionErrorMsg Sentiment.negative = none :=
  ⟨rfl, feedback_requires_query_id connectionErrorMsg Sentiment.negative rfl⟩

end Vectrieve
